import Mathlib

/-!
Verification of the golangci-config configuration resolution pipeline.

The development shallowly embeds the Go sources:
* `internal/domain/config` (Merge, DeepCopy, ExtractRemoteURL, ParseConfigFlag),
* `internal/infrastructure/remote/fetcher.go` (HTTPFetcher.Fetch),
* `internal/infrastructure/config/service.go` (Service.Prepare, cleanupGeneratedFiles).

Go `interface{}` YAML values are embedded as the inductive type `Doc`
(`null` is Go's nil interface, `mapD` is `map[string]interface{}` as an
association list, `seqD` is `[]interface{}`).  Go map iteration is
determinized by list order; Go maps have unique keys, which appears as
`Nodup` hypotheses where relevant.  File-system and HTTP effects are
embedded by explicit state passing.
-/

namespace GolangciConfig

/-- A normalized YAML document (Go `interface{}` after `normalize`):
`null` models the nil interface, `mapD` models `map[string]interface{}`,
`seqD` models `[]interface{}`, the rest model immutable scalars. -/
inductive Doc where
  | null : Doc
  | mapD (entries : List (String × Doc)) : Doc
  | seqD (items : List Doc) : Doc
  | strD (s : String) : Doc
  | intD (n : Int) : Doc
  | boolD (b : Bool) : Doc
deriving Repr

/-- Go `result[key]` read on a map embedded as an association list
(first binding wins; keys are unique in maps produced by the code). -/
def entGet : List (String × Doc) → String → Option Doc
  | [], _ => none
  | (k, v) :: rest, key => if k = key then some v else entGet rest key

/-- Go `result[key] = value` on a map embedded as an association list:
replace the first binding of `key`, leaving the list unchanged when the
key is absent (the code only calls it on present keys). -/
def entSet : List (String × Doc) → String → Doc → List (String × Doc)
  | [], _, _ => []
  | (k, v) :: rest, key, newV =>
    if k = key then (k, newV) :: rest else (k, v) :: entSet rest key newV

mutual

/-- `DeepCopy` from `internal/domain/config` (args_test.go companion
source): recursively copies maps and slices, returns scalars as-is. -/
def DeepCopy : Doc → Doc
  | Doc.mapD es => Doc.mapD (copyEntries es)
  | Doc.seqD xs => Doc.seqD (copySeq xs)
  | d => d

/-- The `for key, value := range v` copy loop inside `DeepCopy`
for the map case. -/
def copyEntries : List (String × Doc) → List (String × Doc)
  | [] => []
  | (k, v) :: rest => (k, DeepCopy v) :: copyEntries rest

/-- The `for i, item := range v` copy loop inside `DeepCopy`
for the slice case. -/
def copySeq : List Doc → List Doc
  | [] => []
  | v :: rest => DeepCopy v :: copySeq rest

end

mutual

/-- `Merge` from `internal/domain/config`.  The Go function first turns a
nil `override` into an empty map (`if override == nil { override =
map[string]interface{}{} }`); that substitution is expanded into the
`Doc.null` match arms below.  A map base is copied and then the override
map is folded in (`mergeInto`); a slice base is replaced by a deep copy of
a slice override; any other combination returns `DeepCopy override`. -/
def Merge : Doc → Doc → Doc
  | Doc.mapD bes, Doc.null => Doc.mapD (mergeInto (copyEntries bes) [])
  | Doc.mapD bes, Doc.mapD oes => Doc.mapD (mergeInto (copyEntries bes) oes)
  | Doc.mapD _, ov => DeepCopy ov
  | Doc.seqD _, Doc.null => DeepCopy (Doc.mapD [])
  | Doc.seqD _, Doc.seqD os => DeepCopy (Doc.seqD os)
  | Doc.seqD _, ov => DeepCopy ov
  | _, Doc.null => DeepCopy (Doc.mapD [])
  | _, ov => DeepCopy ov
termination_by _ o => 2 * sizeOf o + 1

/-- The `for key, value := range overrideMap` loop of `Merge`: if the key
already exists in the result, merge recursively; otherwise insert a deep
copy of the override value. -/
def mergeInto : List (String × Doc) → List (String × Doc) → List (String × Doc)
  | res, [] => res
  | res, (k, v) :: rest =>
    match entGet res k with
    | some existing => mergeInto (entSet res k (Merge existing v)) rest
    | none => mergeInto (res ++ [(k, DeepCopy v)]) rest
termination_by _ oes => 2 * sizeOf oes

end

example : Merge (Doc.mapD [("a", Doc.intD 1)]) Doc.null = Doc.mapD [("a", Doc.intD 1)] := by
  simp [Merge, mergeInto, copyEntries, DeepCopy]

example :
    Merge (Doc.mapD [("a", Doc.intD 1), ("b", Doc.intD 2)])
      (Doc.mapD [("b", Doc.intD 3), ("c", Doc.intD 4)]) =
    Doc.mapD [("a", Doc.intD 1), ("b", Doc.intD 3), ("c", Doc.intD 4)] := by
  simp [Merge, mergeInto, copyEntries, copySeq, DeepCopy, entGet, entSet]

/-- `true` iff the document is Go's nil interface (`x == nil`). -/
def Doc.isNull : Doc → Bool
  | Doc.null => true
  | _ => false

/-- `true` iff the document is a `map[string]interface{}` value. -/
def Doc.isMap : Doc → Bool
  | Doc.mapD _ => true
  | _ => false

/-- `true` iff the document is a `[]interface{}` value. -/
def Doc.isSeq : Doc → Bool
  | Doc.seqD _ => true
  | _ => false

/-- Map lookup lifted to documents (none on non-maps). -/
def Doc.get? : Doc → String → Option Doc
  | Doc.mapD es, k => entGet es k
  | _, _ => none

/-- The key set of an association list, in order. -/
def entKeys (es : List (String × Doc)) : List String := es.map Prod.fst

mutual

theorem deepCopy_eq : ∀ d : Doc, DeepCopy d = d
  | Doc.null => by simp [DeepCopy]
  | Doc.mapD es => by simp [DeepCopy, copyEntries_eq es]
  | Doc.seqD xs => by simp [DeepCopy, copySeq_eq xs]
  | Doc.strD _ => by simp [DeepCopy]
  | Doc.intD _ => by simp [DeepCopy]
  | Doc.boolD _ => by simp [DeepCopy]

theorem copyEntries_eq : ∀ es : List (String × Doc), copyEntries es = es
  | [] => by simp [copyEntries]
  | (k, v) :: rest => by simp [copyEntries, deepCopy_eq v, copyEntries_eq rest]

theorem copySeq_eq : ∀ xs : List Doc, copySeq xs = xs
  | [] => by simp [copySeq]
  | v :: rest => by simp [copySeq, deepCopy_eq v, copySeq_eq rest]

end

theorem entGet_entSet_self {res : List (String × Doc)} {key : String} {v e : Doc}
    (h : entGet res key = some e) : entGet (entSet res key v) key = some v := by
  induction res with
  | nil => simp [entGet] at h
  | cons hd tl ih =>
    obtain ⟨k1, v1⟩ := hd
    by_cases hk : k1 = key
    · simp [entGet, entSet, hk]
    · simp [entGet, entSet, hk] at h ⊢
      exact ih h

theorem entGet_entSet_ne {res : List (String × Doc)} {key k : String} {v : Doc}
    (h : key ≠ k) : entGet (entSet res key v) k = entGet res k := by
  induction res with
  | nil => simp [entSet]
  | cons hd tl ih =>
    obtain ⟨k1, v1⟩ := hd
    by_cases hk : k1 = key
    · subst hk
      simp [entGet, entSet, h]
    · simp [entGet, entSet, hk]
      by_cases hk2 : k1 = k
      · simp [hk2]
      · simp [hk2, ih]

theorem entGet_append_some {res l2 : List (String × Doc)} {k : String} {v : Doc}
    (h : entGet res k = some v) : entGet (res ++ l2) k = some v := by
  induction res with
  | nil => simp [entGet] at h
  | cons hd tl ih =>
    obtain ⟨k1, v1⟩ := hd
    by_cases hk : k1 = k
    · simp [entGet, hk] at h ⊢
      exact h
    · simp [entGet, hk] at h ⊢
      exact ih h

theorem entGet_append_none {res l2 : List (String × Doc)} {k : String}
    (h : entGet res k = none) : entGet (res ++ l2) k = entGet l2 k := by
  induction res with
  | nil => simp [entGet]
  | cons hd tl ih =>
    obtain ⟨k1, v1⟩ := hd
    by_cases hk : k1 = k
    · simp [entGet, hk] at h
    · simp [entGet, hk] at h ⊢
      exact ih h

theorem entKeys_cons (k1 : String) (v1 : Doc) (tl : List (String × Doc)) :
    entKeys ((k1, v1) :: tl) = k1 :: entKeys tl := rfl

theorem mergeInto_entGet_not_mem :
    ∀ (oes res : List (String × Doc)) (k : String), k ∉ entKeys oes →
      entGet (mergeInto res oes) k = entGet res k := by
  intro oes
  induction oes with
  | nil => intro res k _; simp [mergeInto]
  | cons hd tl ih =>
    intro res k hk
    obtain ⟨k1, v1⟩ := hd
    rw [entKeys_cons] at hk
    have hne : k ≠ k1 := fun h => hk (h ▸ List.mem_cons_self _ _)
    have htl : k ∉ entKeys tl := fun h => hk (List.mem_cons_of_mem _ h)
    rw [mergeInto]
    cases h : entGet res k1 with
    | some existing =>
      simp only []
      rw [ih _ _ htl, entGet_entSet_ne (Ne.symm hne)]
    | none =>
      simp only []
      rw [ih _ _ htl]
      cases h2 : entGet res k with
      | some v => exact entGet_append_some h2
      | none =>
        rw [entGet_append_none h2]
        simp [entGet, Ne.symm hne]

theorem mergeInto_entGet_mem :
    ∀ (oes res : List (String × Doc)) (k : String) (v : Doc),
      (entKeys oes).Nodup → (k, v) ∈ oes →
      entGet (mergeInto res oes) k =
        some (match entGet res k with
              | some e => Merge e v
              | none => DeepCopy v) := by
  intro oes
  induction oes with
  | nil => intro res k v _ hm; simp at hm
  | cons hd tl ih =>
    intro res k v hnd hm
    obtain ⟨k1, v1⟩ := hd
    rw [entKeys_cons] at hnd
    have hnd1 : k1 ∉ entKeys tl := (List.nodup_cons.mp hnd).1
    have hnd2 : (entKeys tl).Nodup := (List.nodup_cons.mp hnd).2
    rcases List.mem_cons.mp hm with heq | htl
    · rw [Prod.mk.injEq] at heq
      obtain ⟨hk, hv⟩ := heq
      subst hk
      subst hv
      rw [mergeInto]
      cases h : entGet res k with
      | some existing =>
        simp only []
        rw [mergeInto_entGet_not_mem _ _ _ hnd1]
        exact entGet_entSet_self h
      | none =>
        simp only []
        rw [mergeInto_entGet_not_mem _ _ _ hnd1, entGet_append_none h]
        simp [entGet]
    · have hkne : k ≠ k1 := by
        intro hkk
        subst hkk
        exact hnd1 (List.mem_map.mpr ⟨(k, v), htl, rfl⟩)
      rw [mergeInto]
      cases h : entGet res k1 with
      | some existing =>
        simp only []
        rw [ih _ _ _ hnd2 htl, entGet_entSet_ne (Ne.symm hkne)]
      | none =>
        simp only []
        rw [ih _ _ _ hnd2 htl]
        cases h2 : entGet res k with
        | some w => rw [entGet_append_some h2]
        | none =>
          rw [entGet_append_none h2]
          simp [entGet, Ne.symm hkne]

theorem merge_map_map (bes oes : List (String × Doc)) :
    Merge (Doc.mapD bes) (Doc.mapD oes) = Doc.mapD (mergeInto bes oes) := by
  rw [Merge, copyEntries_eq]

theorem merge_map_null (bes : List (String × Doc)) :
    Merge (Doc.mapD bes) Doc.null = Doc.mapD bes := by
  rw [Merge, copyEntries_eq, mergeInto]

/-- C1 counterexample: the claim's sequence clause says a non-sequence
override replaces a sequence base with a deep copy of the override, but a
nil override over a sequence base yields an empty mapping, not a copy of
nil. -/
theorem claim_C1_counterexample :
    Merge (Doc.seqD [Doc.intD 1]) Doc.null = Doc.mapD [] ∧
    DeepCopy Doc.null = Doc.null ∧ Doc.mapD [] ≠ Doc.null := by
  refine ⟨by simp [Merge, DeepCopy, copyEntries], by simp [DeepCopy], by simp⟩

/-- C1 (amended): when both base and override are string-keyed mappings,
every key present only in base keeps its base value, every key present
only in override gets a deep copy of the override value, and every key
present in both gets the recursive merge of the two values; a sequence
base is fully replaced by a sequence override (no element-wise merge),
and any non-sequence, *non-nil* override replaces a sequence base
entirely with a deep copy of itself (a nil override instead produces an
empty mapping). -/
theorem claim_C1_amended :
    (∀ (bes oes : List (String × Doc)) (k : String), (entKeys oes).Nodup →
      ((k ∉ entKeys oes →
          Doc.get? (Merge (Doc.mapD bes) (Doc.mapD oes)) k = entGet bes k) ∧
       (∀ v : Doc, (k, v) ∈ oes → entGet bes k = none →
          Doc.get? (Merge (Doc.mapD bes) (Doc.mapD oes)) k = some (DeepCopy v)) ∧
       (∀ u v : Doc, entGet bes k = some u → (k, v) ∈ oes →
          Doc.get? (Merge (Doc.mapD bes) (Doc.mapD oes)) k = some (Merge u v)))) ∧
    (∀ (xs os : List Doc), Merge (Doc.seqD xs) (Doc.seqD os) = Doc.seqD os) ∧
    (∀ (xs : List Doc) (ov : Doc), ov ≠ Doc.null → ov.isSeq = false →
      Merge (Doc.seqD xs) ov = DeepCopy ov) := by
  refine ⟨?_, ?_, ?_⟩
  · intro bes oes k hnd
    rw [merge_map_map]
    refine ⟨?_, ?_, ?_⟩
    · intro hk
      simpa [Doc.get?] using mergeInto_entGet_not_mem oes bes k hk
    · intro v hmem hnone
      have h := mergeInto_entGet_mem oes bes k v hnd hmem
      rw [hnone] at h
      simpa [Doc.get?] using h
    · intro u v hsome hmem
      have h := mergeInto_entGet_mem oes bes k v hnd hmem
      rw [hsome] at h
      simpa [Doc.get?] using h
  · intro xs os
    rw [Merge, DeepCopy, copySeq_eq]
  · intro xs ov hnn hns
    cases ov with
    | null => exact absurd rfl hnn
    | seqD _ => simp [Doc.isSeq] at hns
    | mapD oes => simp [Merge]
    | strD s => simp [Merge]
    | intD n => simp [Merge]
    | boolD b => simp [Merge]

theorem claim_C1_witness :
    Doc.get? (Merge (Doc.mapD [("a", Doc.intD 1)]) (Doc.mapD [("b", Doc.intD 2)])) "a" =
      some (Doc.intD 1) := by
  have h := (claim_C1_amended.1 [("a", Doc.intD 1)] [("b", Doc.intD 2)] "a"
      (by simp [entKeys])).1 (by simp [entKeys])
  simpa [entGet] using h

/-- C2 counterexample: the claim says every non-mapping override over a
mapping base is treated as an empty mapping, preserving the base; in the
code a non-nil non-mapping override (here a scalar string) replaces the
base entirely. -/
theorem claim_C2_counterexample :
    Merge (Doc.mapD [("a", Doc.intD 1)]) (Doc.strD "x") = Doc.strD "x" ∧
    Doc.strD "x" ≠ Doc.mapD [("a", Doc.intD 1)] := by
  refine ⟨by simp [Merge, DeepCopy], by simp⟩

/-- C2 (amended): only a *nil* override over a mapping base merges as an
empty object, preserving every key and value of the base; a non-nil
non-mapping override replaces the mapping base entirely with a deep copy
of itself. -/
theorem claim_C2_amended :
    (∀ bes : List (String × Doc), Merge (Doc.mapD bes) Doc.null = Doc.mapD bes) ∧
    (∀ (bes : List (String × Doc)) (ov : Doc), ov ≠ Doc.null → ov.isMap = false →
      Merge (Doc.mapD bes) ov = DeepCopy ov) := by
  refine ⟨merge_map_null, ?_⟩
  intro bes ov hnn hnm
  cases ov with
  | null => exact absurd rfl hnn
  | mapD _ => simp [Doc.isMap] at hnm
  | seqD _ => simp [Merge]
  | strD _ => simp [Merge]
  | intD _ => simp [Merge]
  | boolD _ => simp [Merge]

theorem claim_C2_witness :
    Merge (Doc.mapD [("a", Doc.intD 1)]) (Doc.seqD [Doc.intD 2]) =
      DeepCopy (Doc.seqD [Doc.intD 2]) :=
  claim_C2_amended.2 [("a", Doc.intD 1)] (Doc.seqD [Doc.intD 2]) (by simp) (by rfl)

/-- C10: for every base that is not a mapping (scalar, sequence or nil),
`Merge(base, nil)` returns an empty mapping, discarding the base; the
base-preserving effect of a nil override applies only to mapping bases,
which are returned unchanged. -/
theorem claim_C10_theorem :
    (∀ base : Doc, base.isMap = false → Merge base Doc.null = Doc.mapD []) ∧
    (∀ bes : List (String × Doc), Merge (Doc.mapD bes) Doc.null = Doc.mapD bes) := by
  constructor
  · intro base h
    cases base with
    | mapD _ => simp [Doc.isMap] at h
    | null => simp [Merge, DeepCopy, copyEntries]
    | seqD _ => simp [Merge, DeepCopy, copyEntries]
    | strD _ => simp [Merge, DeepCopy, copyEntries]
    | intD _ => simp [Merge, DeepCopy, copyEntries]
    | boolD _ => simp [Merge, DeepCopy, copyEntries]
  · exact merge_map_null

theorem claim_C10_witness :
    Merge (Doc.seqD [Doc.intD 1]) Doc.null = Doc.mapD [] :=
  claim_C10_theorem.1 (Doc.seqD [Doc.intD 1]) rfl

/-!
### Heap model for the frame property of `Merge` (claim C3)

Go maps and slices are mutable reference types.  To state that `Merge`
mutates neither argument we re-embed `Merge` and `DeepCopy` against an
explicit heap: scalars are immutable values, maps and slices are
addresses into a store of nodes; `make` allocates a fresh address and
`result[key] = v` is an explicit store write.  Recursion is by fuel
(returning `none` when the fuel runs out), which keeps every definition
executable.
-/


/-- A Go `interface{}` value: immutable scalars, or a reference. -/
inductive HVal where
  | vnull : HVal
  | vstr (s : String) : HVal
  | vint (n : Int) : HVal
  | vbool (b : Bool) : HVal
  | vref (a : Nat) : HVal
deriving DecidableEq, Repr

/-- A heap node: the contents of a `map[string]interface{}` or of a
`[]interface{}`. -/
inductive HNode where
  | hmap (entries : List (String × HVal)) : HNode
  | hseq (items : List HVal) : HNode
deriving DecidableEq, Repr

/-- Association-list lookup on map-node entries. -/
def hentGet : List (String × HVal) → String → Option HVal
  | [], _ => none
  | (k, v) :: rest, key => if k = key then some v else hentGet rest key

/-- Go map assignment on map-node entries: replace the first binding of
the key or append a new one. -/
def hentSet : List (String × HVal) → String → HVal → List (String × HVal)
  | [], key, newV => [(key, newV)]
  | (k, v) :: rest, key, newV =>
    if k = key then (k, newV) :: rest else (k, v) :: hentSet rest key newV

/-- The heap: an allocation counter and a store of nodes. -/
structure Heap where
  next : Nat
  mem : List (Nat × HNode)
deriving Repr

/-- Store lookup. -/
def memGet : List (Nat × HNode) → Nat → Option HNode
  | [], _ => none
  | (b, n) :: rest, a => if b = a then some n else memGet rest a

/-- Store update (replaces the binding of an existing address). -/
def memSet : List (Nat × HNode) → Nat → HNode → List (Nat × HNode)
  | [], _, _ => []
  | (b, n) :: rest, a, newN =>
    if b = a then (b, newN) :: rest else (b, n) :: memSet rest a newN

/-- Dereference an address. -/
def Heap.get (h : Heap) (a : Nat) : Option HNode := memGet h.mem a

/-- `make(map[string]interface{})` / `make([]interface{}, n)`: allocate a
fresh node, returning the new heap and the fresh address. -/
def Heap.alloc (h : Heap) (n : HNode) : Heap × Nat :=
  (⟨h.next + 1, (h.next, n) :: h.mem⟩, h.next)

/-- Overwrite the node at an address (a heap mutation). -/
def Heap.set (h : Heap) (a : Nat) (n : HNode) : Heap :=
  ⟨h.next, memSet h.mem a n⟩

/-- Go `m[key] = v` on the map node at address `a`. -/
def Heap.mapSet (h : Heap) (a : Nat) (k : String) (v : HVal) : Heap :=
  match h.get a with
  | some (HNode.hmap es) => h.set a (HNode.hmap (hentSet es k v))
  | _ => h

/-- Go `s[i] = v` on the slice node at address `a`. -/
def Heap.seqSet (h : Heap) (a : Nat) (i : Nat) (v : HVal) : Heap :=
  match h.get a with
  | some (HNode.hseq xs) => h.set a (HNode.hseq (xs.set i v))
  | _ => h

mutual

/-- Heap-level `DeepCopy`: the map case allocates a fresh map and writes
each recursively copied entry into it; the slice case allocates a slice
of the same length and writes each copied element; scalars are returned
as-is.  Mirrors `DeepCopy` statement by statement. -/
def deepCopyH : Nat → Heap → HVal → Option (Heap × HVal)
  | 0, _, _ => none
  | fuel + 1, h, v =>
    match v with
    | HVal.vref a =>
      match h.get a with
      | some (HNode.hmap es) =>
        let p := h.alloc (HNode.hmap [])
        match copyEntriesH fuel p.1 p.2 es with
        | some h2 => some (h2, HVal.vref p.2)
        | none => none
      | some (HNode.hseq xs) =>
        let p := h.alloc (HNode.hseq (List.replicate xs.length HVal.vnull))
        match copySeqH fuel p.1 p.2 0 xs with
        | some h2 => some (h2, HVal.vref p.2)
        | none => none
      | none => none
    | _ => some (h, v)

/-- The `for key, value := range v { result[key] = DeepCopy(value) }`
loop of `DeepCopy`, writing into the fresh map at address `r`. -/
def copyEntriesH : Nat → Heap → Nat → List (String × HVal) → Option Heap
  | 0, _, _, _ => none
  | _ + 1, h, _, [] => some h
  | fuel + 1, h, r, (k, v) :: rest =>
    match deepCopyH fuel h v with
    | some (h1, cv) => copyEntriesH fuel (h1.mapSet r k cv) r rest
    | none => none

/-- The `for i, item := range v { result[i] = DeepCopy(item) }` loop of
`DeepCopy`, writing into the fresh slice at address `r`. -/
def copySeqH : Nat → Heap → Nat → Nat → List HVal → Option Heap
  | 0, _, _, _, _ => none
  | _ + 1, h, _, _, [] => some h
  | fuel + 1, h, r, i, x :: rest =>
    match deepCopyH fuel h x with
    | some (h1, cv) => copySeqH fuel (h1.seqSet r i cv) r (i + 1) rest
    | none => none

end

/-- The `if override == nil { override = map[string]interface{}{} }`
prologue of `Merge`: a nil override is replaced by a freshly allocated
empty map. -/
def substNull (h : Heap) (override : HVal) : Heap × HVal :=
  if override = HVal.vnull then
    let p := h.alloc (HNode.hmap [])
    (p.1, HVal.vref p.2)
  else (h, override)

mutual

/-- Heap-level `Merge`, mirroring the Go function: nil override becomes a
fresh empty map; a map base is copied into a fresh result map which the
override map is then folded into; a slice or scalar base returns a deep
copy of the override (for a slice base the Go code asserts the override
to a slice first, but both branches deep-copy the same value). -/
def mergeH : Nat → Heap → HVal → HVal → Option (Heap × HVal)
  | 0, _, _, _ => none
  | fuel + 1, h, base, override =>
    let q := substNull h override
    match base with
    | HVal.vref a =>
      match q.1.get a with
      | some (HNode.hmap bes) =>
        let p := q.1.alloc (HNode.hmap [])
        match copyEntriesH fuel p.1 p.2 bes with
        | some h2 =>
          match q.2 with
          | HVal.vref b =>
            match h2.get b with
            | some (HNode.hmap oes) =>
              match mergeIntoH fuel h2 p.2 oes with
              | some h3 => some (h3, HVal.vref p.2)
              | none => none
            | some (HNode.hseq _) => deepCopyH fuel h2 q.2
            | none => none
          | _ => deepCopyH fuel h2 q.2
        | none => none
      | some (HNode.hseq _) => deepCopyH fuel q.1 q.2
      | none => none
    | _ => deepCopyH fuel q.1 q.2

/-- The `for key, value := range overrideMap` loop of `Merge` against the
result map at address `r`: merge recursively when the key is present,
insert a deep copy otherwise. -/
def mergeIntoH : Nat → Heap → Nat → List (String × HVal) → Option Heap
  | 0, _, _, _ => none
  | _ + 1, h, _, [] => some h
  | fuel + 1, h, r, (k, v) :: rest =>
    match h.get r with
    | some (HNode.hmap res) =>
      match hentGet res k with
      | some existing =>
        match mergeH fuel h existing v with
        | some (h1, mv) => mergeIntoH fuel (h1.mapSet r k mv) r rest
        | none => none
      | none =>
        match deepCopyH fuel h v with
        | some (h1, cv) => mergeIntoH fuel (h1.mapSet r k cv) r rest
        | none => none
    | _ => none

end

mutual

/-- Read a heap value back as a structural snapshot (`Doc`). -/
def readHVal : Nat → Heap → HVal → Option Doc
  | 0, _, _ => none
  | fuel + 1, h, v =>
    match v with
    | HVal.vnull => some Doc.null
    | HVal.vstr s => some (Doc.strD s)
    | HVal.vint n => some (Doc.intD n)
    | HVal.vbool b => some (Doc.boolD b)
    | HVal.vref a =>
      match h.get a with
      | some (HNode.hmap es) => (readEntries fuel h es).map Doc.mapD
      | some (HNode.hseq xs) => (readSeq fuel h xs).map Doc.seqD
      | none => none

/-- Snapshot of map-node entries. -/
def readEntries : Nat → Heap → List (String × HVal) → Option (List (String × Doc))
  | 0, _, _ => none
  | _ + 1, _, [] => some []
  | fuel + 1, h, (k, v) :: rest =>
    match readHVal fuel h v with
    | some d =>
      match readEntries fuel h rest with
      | some ds => some ((k, d) :: ds)
      | none => none
    | none => none

/-- Snapshot of slice-node elements. -/
def readSeq : Nat → Heap → List HVal → Option (List Doc)
  | 0, _, _ => none
  | _ + 1, _, [] => some []
  | fuel + 1, h, x :: rest =>
    match readHVal fuel h x with
    | some d =>
      match readSeq fuel h rest with
      | some ds => some (d :: ds)
      | none => none
    | none => none

end

/-- Well-formed heap: nothing is stored at or above the allocation
counter. -/
def Heap.wf (h : Heap) : Prop := ∀ a : Nat, h.next ≤ a → h.get a = none

/-- The call grew the heap without touching any pre-existing address. -/
def FrameOK (h h' : Heap) : Prop :=
  h.next ≤ h'.next ∧ ∀ a : Nat, a < h.next → h'.get a = h.get a

/-- As `FrameOK`, except that the node at `r` (the result object under
construction, freshly allocated by the caller) may change. -/
def FrameOKex (h h' : Heap) (r : Nat) : Prop :=
  h.next ≤ h'.next ∧ ∀ a : Nat, a < h.next → a ≠ r → h'.get a = h.get a

theorem frameOK_refl (h : Heap) : FrameOK h h := ⟨le_refl _, fun _ _ => rfl⟩

theorem frameOK_trans {h h1 h2 : Heap} (a01 : FrameOK h h1) (a12 : FrameOK h1 h2) :
    FrameOK h h2 :=
  ⟨le_trans a01.1 a12.1, fun a ha => by
    rw [a12.2 a (lt_of_lt_of_le ha a01.1), a01.2 a ha]⟩

theorem frame_comp_ok_ex {h h1 h2 : Heap} {r : Nat}
    (a01 : FrameOK h h1) (a12 : FrameOKex h1 h2 r) : FrameOKex h h2 r :=
  ⟨le_trans a01.1 a12.1, fun a ha hr => by
    rw [a12.2 a (lt_of_lt_of_le ha a01.1) hr, a01.2 a ha]⟩

theorem frame_comp_ex_ex {h h1 h2 : Heap} {r : Nat}
    (a01 : FrameOKex h h1 r) (a12 : FrameOKex h1 h2 r) : FrameOKex h h2 r :=
  ⟨le_trans a01.1 a12.1, fun a ha hr => by
    rw [a12.2 a (lt_of_lt_of_le ha a01.1) hr, a01.2 a ha hr]⟩

theorem frameOK_trans_ex {h h1 h2 : Heap} {r : Nat}
    (a01 : FrameOK h h1) (a12 : FrameOKex h1 h2 r) (hr : h.next ≤ r) : FrameOK h h2 :=
  ⟨le_trans a01.1 a12.1, fun a ha => by
    rw [a12.2 a (lt_of_lt_of_le ha a01.1) (by omega), a01.2 a ha]⟩

theorem alloc_get_lt {h : Heap} {n : HNode} {a : Nat} (ha : a < h.next) :
    (h.alloc n).1.get a = h.get a := by
  simp only [Heap.alloc, Heap.get, memGet]
  have : h.next ≠ a := by omega
  simp [this]

theorem frame_alloc (h : Heap) (n : HNode) : FrameOK h (h.alloc n).1 :=
  ⟨by simp [Heap.alloc], fun a ha => alloc_get_lt ha⟩

/-- Filling a freshly allocated node only, the result is frame-safe for
the original heap. -/
theorem frame_alloc_compose {h h2 : Heap} {n : HNode}
    (hex : FrameOKex (h.alloc n).1 h2 (h.alloc n).2) : FrameOK h h2 := by
  refine ⟨?_, ?_⟩
  · have := hex.1
    simp [Heap.alloc] at this
    omega
  · intro a ha
    have h1 : h2.get a = (h.alloc n).1.get a := by
      refine hex.2 a ?_ ?_
      · simp [Heap.alloc]; omega
      · simp [Heap.alloc]; omega
    rw [h1, alloc_get_lt ha]

theorem memGet_memSet_ne {mem : List (Nat × HNode)} {a b : Nat} {n : HNode}
    (hne : b ≠ a) : memGet (memSet mem a n) b = memGet mem b := by
  induction mem with
  | nil => simp [memSet]
  | cons hd tl ih =>
    obtain ⟨c, m⟩ := hd
    by_cases hc : c = a
    · subst hc
      simp [memSet, memGet, Ne.symm hne]
    · simp [memSet, memGet, hc]
      by_cases hcb : c = b
      · simp [hcb]
      · simp [hcb, ih]

theorem set_get_ne {h : Heap} {a b : Nat} {n : HNode} (hne : b ≠ a) :
    (h.set a n).get b = h.get b := memGet_memSet_ne hne

theorem mapSet_next (h : Heap) (r : Nat) (k : String) (v : HVal) :
    (h.mapSet r k v).next = h.next := by
  rw [Heap.mapSet]
  cases hg : h.get r with
  | none => rfl
  | some node => cases node <;> simp [Heap.set]

theorem mapSet_get_ne {h : Heap} {r b : Nat} {k : String} {v : HVal} (hne : b ≠ r) :
    (h.mapSet r k v).get b = h.get b := by
  rw [Heap.mapSet]
  cases hg : h.get r with
  | none => rfl
  | some node => cases node <;> simp [set_get_ne hne]

theorem frame_mapSet (h : Heap) (r : Nat) (k : String) (v : HVal) :
    FrameOKex h (h.mapSet r k v) r :=
  ⟨le_of_eq (mapSet_next h r k v).symm, fun _ _ hne => mapSet_get_ne hne⟩

theorem seqSet_next (h : Heap) (r : Nat) (i : Nat) (v : HVal) :
    (h.seqSet r i v).next = h.next := by
  rw [Heap.seqSet]
  cases hg : h.get r with
  | none => rfl
  | some node => cases node <;> simp [Heap.set]

theorem seqSet_get_ne {h : Heap} {r b : Nat} {i : Nat} {v : HVal} (hne : b ≠ r) :
    (h.seqSet r i v).get b = h.get b := by
  rw [Heap.seqSet]
  cases hg : h.get r with
  | none => rfl
  | some node => cases node <;> simp [set_get_ne hne]

theorem frame_seqSet (h : Heap) (r : Nat) (i : Nat) (v : HVal) :
    FrameOKex h (h.seqSet r i v) r :=
  ⟨le_of_eq (seqSet_next h r i v).symm, fun _ _ hne => seqSet_get_ne hne⟩

/-- `DeepCopy` at the heap level never touches a pre-existing address:
it only allocates fresh nodes and writes into them. -/
theorem copyFrame : ∀ fuel : Nat,
    (∀ (h : Heap) (v : HVal) (h' : Heap) (v' : HVal),
        deepCopyH fuel h v = some (h', v') → FrameOK h h') ∧
    (∀ (h : Heap) (r : Nat) (es : List (String × HVal)) (h' : Heap),
        copyEntriesH fuel h r es = some h' → FrameOKex h h' r) ∧
    (∀ (h : Heap) (r i : Nat) (xs : List HVal) (h' : Heap),
        copySeqH fuel h r i xs = some h' → FrameOKex h h' r) := by
  intro fuel
  induction fuel with
  | zero =>
    refine ⟨?_, ?_, ?_⟩
    · intro h v h' v' heq; simp [deepCopyH] at heq
    · intro h r es h' heq; simp [copyEntriesH] at heq
    · intro h r i xs h' heq; simp [copySeqH] at heq
  | succ n ih =>
    obtain ⟨ihd, ihe, ihs⟩ := ih
    refine ⟨?_, ?_, ?_⟩
    · intro h v h' v' heq
      cases v with
      | vref a =>
        rw [deepCopyH] at heq
        cases hga : h.get a with
        | none => rw [hga] at heq; simp at heq
        | some node =>
          rw [hga] at heq
          cases node with
          | hmap es =>
            simp only [] at heq
            cases hce : copyEntriesH n (h.alloc (HNode.hmap [])).1
                (h.alloc (HNode.hmap [])).2 es with
            | none => rw [hce] at heq; simp at heq
            | some h2 =>
              rw [hce] at heq
              simp at heq
              rw [← heq.1]
              exact frame_alloc_compose (ihe _ _ _ _ hce)
          | hseq xs =>
            simp only [] at heq
            cases hcs : copySeqH n (h.alloc (HNode.hseq (List.replicate xs.length HVal.vnull))).1
                (h.alloc (HNode.hseq (List.replicate xs.length HVal.vnull))).2 0 xs with
            | none => rw [hcs] at heq; simp at heq
            | some h2 =>
              rw [hcs] at heq
              simp at heq
              rw [← heq.1]
              exact frame_alloc_compose (ihs _ _ _ _ _ hcs)
      | vnull => simp [deepCopyH] at heq; rw [← heq.1]; exact frameOK_refl h
      | vstr s => simp [deepCopyH] at heq; rw [← heq.1]; exact frameOK_refl h
      | vint m => simp [deepCopyH] at heq; rw [← heq.1]; exact frameOK_refl h
      | vbool b => simp [deepCopyH] at heq; rw [← heq.1]; exact frameOK_refl h
    · intro h r es h' heq
      cases es with
      | nil =>
        simp [copyEntriesH] at heq
        rw [← heq]
        exact ⟨le_refl _, fun _ _ _ => rfl⟩
      | cons hd rest =>
        obtain ⟨k, v⟩ := hd
        rw [copyEntriesH] at heq
        cases hdc : deepCopyH n h v with
        | none => rw [hdc] at heq; simp at heq
        | some p =>
          obtain ⟨h1, cv⟩ := p
          rw [hdc] at heq
          simp only [] at heq
          have f1 : FrameOK h h1 := ihd _ _ _ _ hdc
          have f2 : FrameOKex h1 (h1.mapSet r k cv) r := frame_mapSet h1 r k cv
          have f3 : FrameOKex (h1.mapSet r k cv) h' r := ihe _ _ _ _ heq
          exact frame_comp_ok_ex f1 (frame_comp_ex_ex f2 f3)
    · intro h r i xs h' heq
      induction xs generalizing h i with
      | nil =>
        simp [copySeqH] at heq
        rw [← heq]
        exact ⟨le_refl _, fun _ _ _ => rfl⟩
      | cons x rest ihx =>
        rw [copySeqH] at heq
        cases hdc : deepCopyH n h x with
        | none => rw [hdc] at heq; simp at heq
        | some p =>
          obtain ⟨h1, cv⟩ := p
          rw [hdc] at heq
          simp only [] at heq
          have f1 : FrameOK h h1 := ihd _ _ _ _ hdc
          have f2 : FrameOKex h1 (h1.seqSet r i cv) r := frame_seqSet h1 r i cv
          have f3 : FrameOKex (h1.seqSet r i cv) h' r := ihs _ _ _ _ _ heq
          exact frame_comp_ok_ex f1 (frame_comp_ex_ex f2 f3)

theorem frame_substNull (h : Heap) (o : HVal) : FrameOK h (substNull h o).1 := by
  rw [substNull]
  by_cases ho : o = HVal.vnull
  · simp only [ho, if_pos rfl]
    exact frame_alloc h (HNode.hmap [])
  · simp only [if_neg ho]
    exact frameOK_refl h

/-- `Merge` at the heap level never touches a pre-existing address: every
write targets a node allocated during the call. -/
theorem mergeFrame : ∀ fuel : Nat,
    (∀ (h : Heap) (b o : HVal) (h' : Heap) (rv : HVal),
        mergeH fuel h b o = some (h', rv) → FrameOK h h') ∧
    (∀ (h : Heap) (r : Nat) (oes : List (String × HVal)) (h' : Heap),
        mergeIntoH fuel h r oes = some h' → FrameOKex h h' r) := by
  intro fuel
  induction fuel with
  | zero =>
    refine ⟨?_, ?_⟩
    · intro h b o h' rv heq; simp [mergeH] at heq
    · intro h r oes h' heq; simp [mergeIntoH] at heq
  | succ n ih =>
    obtain ⟨ihm, ihi⟩ := ih
    refine ⟨?_, ?_⟩
    · intro h b o h' rv heq
      have f0 : FrameOK h (substNull h o).1 := frame_substNull h o
      cases hsub : substNull h o with
      | mk h0 ov =>
        rw [hsub] at f0
        cases b with
        | vref a =>
          simp only [mergeH] at heq
          rw [hsub] at heq
          simp only [] at heq
          cases hga : h0.get a with
          | none => rw [hga] at heq; simp at heq
          | some node =>
            rw [hga] at heq
            cases node with
            | hseq xs =>
              simp only [] at heq
              exact frameOK_trans f0 ((copyFrame n).1 _ _ _ _ heq)
            | hmap bes =>
              simp only [] at heq
              cases hce : copyEntriesH n (h0.alloc (HNode.hmap [])).1
                  (h0.alloc (HNode.hmap [])).2 bes with
              | none => rw [hce] at heq; simp at heq
              | some h2 =>
                rw [hce] at heq
                have f2 : FrameOK h0 h2 :=
                  frame_alloc_compose ((copyFrame n).2.1 _ _ _ _ hce)
                cases ov with
                | vref bb =>
                  simp only [] at heq
                  cases hgb : h2.get bb with
                  | none => rw [hgb] at heq; simp at heq
                  | some node2 =>
                    rw [hgb] at heq
                    cases node2 with
                    | hseq _ =>
                      simp only [] at heq
                      exact frameOK_trans f0
                        (frameOK_trans f2 ((copyFrame n).1 _ _ _ _ heq))
                    | hmap oes =>
                      simp only [] at heq
                      cases hmi : mergeIntoH n h2 (h0.alloc (HNode.hmap [])).2 oes with
                      | none => rw [hmi] at heq; simp at heq
                      | some h3 =>
                        rw [hmi] at heq
                        simp at heq
                        have f3 : FrameOKex h2 h3 (h0.alloc (HNode.hmap [])).2 :=
                          ihi _ _ _ _ hmi
                        have f23 : FrameOK h0 h3 := by
                          refine frameOK_trans_ex f2 f3 ?_
                          simp [Heap.alloc]
                        rw [← heq.1]
                        exact frameOK_trans f0 f23
                | vnull =>
                  simp only [] at heq
                  exact frameOK_trans f0 (frameOK_trans f2 ((copyFrame n).1 _ _ _ _ heq))
                | vstr s =>
                  simp only [] at heq
                  exact frameOK_trans f0 (frameOK_trans f2 ((copyFrame n).1 _ _ _ _ heq))
                | vint m =>
                  simp only [] at heq
                  exact frameOK_trans f0 (frameOK_trans f2 ((copyFrame n).1 _ _ _ _ heq))
                | vbool bv =>
                  simp only [] at heq
                  exact frameOK_trans f0 (frameOK_trans f2 ((copyFrame n).1 _ _ _ _ heq))
        | vnull =>
          simp only [mergeH] at heq
          rw [hsub] at heq
          exact frameOK_trans f0 ((copyFrame n).1 _ _ _ _ heq)
        | vstr s =>
          simp only [mergeH] at heq
          rw [hsub] at heq
          exact frameOK_trans f0 ((copyFrame n).1 _ _ _ _ heq)
        | vint m =>
          simp only [mergeH] at heq
          rw [hsub] at heq
          exact frameOK_trans f0 ((copyFrame n).1 _ _ _ _ heq)
        | vbool bv =>
          simp only [mergeH] at heq
          rw [hsub] at heq
          exact frameOK_trans f0 ((copyFrame n).1 _ _ _ _ heq)
    · intro h r oes h' heq
      cases oes with
      | nil =>
        simp [mergeIntoH] at heq
        rw [← heq]
        exact ⟨le_refl _, fun _ _ _ => rfl⟩
      | cons hd rest =>
        obtain ⟨k, v⟩ := hd
        rw [mergeIntoH] at heq
        cases hgr : h.get r with
        | none => rw [hgr] at heq; simp at heq
        | some node =>
          rw [hgr] at heq
          cases node with
          | hseq _ => simp at heq
          | hmap res =>
            simp only [] at heq
            cases hlk : hentGet res k with
            | some existing =>
              rw [hlk] at heq
              simp only [] at heq
              cases hm : mergeH n h existing v with
              | none => rw [hm] at heq; simp at heq
              | some p =>
                obtain ⟨h1, mv⟩ := p
                rw [hm] at heq
                simp only [] at heq
                have f1 : FrameOK h h1 := ihm _ _ _ _ _ hm
                have f2 : FrameOKex h1 (h1.mapSet r k mv) r := frame_mapSet h1 r k mv
                have f3 : FrameOKex (h1.mapSet r k mv) h' r := ihi _ _ _ _ heq
                exact frame_comp_ok_ex f1 (frame_comp_ex_ex f2 f3)
            | none =>
              rw [hlk] at heq
              simp only [] at heq
              cases hdc : deepCopyH n h v with
              | none => rw [hdc] at heq; simp at heq
              | some p =>
                obtain ⟨h1, cv⟩ := p
                rw [hdc] at heq
                simp only [] at heq
                have f1 : FrameOK h h1 := (copyFrame n).1 _ _ _ _ hdc
                have f2 : FrameOKex h1 (h1.mapSet r k cv) r := frame_mapSet h1 r k cv
                have f3 : FrameOKex (h1.mapSet r k cv) h' r := ihi _ _ _ _ heq
                exact frame_comp_ok_ex f1 (frame_comp_ex_ex f2 f3)

/-- Reading a snapshot only dereferences live addresses, so any heap
agreeing with a well-formed heap below its allocation counter yields the
same snapshot. -/
theorem readStable : ∀ fuel : Nat,
    (∀ (h h' : Heap) (v : HVal) (d : Doc),
        (∀ a : Nat, a < h.next → h'.get a = h.get a) → Heap.wf h →
        readHVal fuel h v = some d → readHVal fuel h' v = some d) ∧
    (∀ (h h' : Heap) (es : List (String × HVal)) (ds : List (String × Doc)),
        (∀ a : Nat, a < h.next → h'.get a = h.get a) → Heap.wf h →
        readEntries fuel h es = some ds → readEntries fuel h' es = some ds) ∧
    (∀ (h h' : Heap) (xs : List HVal) (ds : List Doc),
        (∀ a : Nat, a < h.next → h'.get a = h.get a) → Heap.wf h →
        readSeq fuel h xs = some ds → readSeq fuel h' xs = some ds) := by
  intro fuel
  induction fuel with
  | zero =>
    refine ⟨?_, ?_, ?_⟩
    · intro h h' v d _ _ heq; simp [readHVal] at heq
    · intro h h' es ds _ _ heq; simp [readEntries] at heq
    · intro h h' xs ds _ _ heq; simp [readSeq] at heq
  | succ n ih =>
    obtain ⟨ihv, ihe, ihs⟩ := ih
    refine ⟨?_, ?_, ?_⟩
    · intro h h' v d hag hwf heq
      cases v with
      | vnull => simpa [readHVal] using heq
      | vstr s => simpa [readHVal] using heq
      | vint m => simpa [readHVal] using heq
      | vbool bv => simpa [readHVal] using heq
      | vref a =>
        rw [readHVal] at heq ⊢
        cases hga : h.get a with
        | none => rw [hga] at heq; simp at heq
        | some node =>
          have halt : a < h.next := by
            by_contra hcon
            rw [hwf a (by omega)] at hga
            exact Option.noConfusion hga
          rw [hag a halt, hga]
          rw [hga] at heq
          cases node with
          | hmap es =>
            simp only [] at heq ⊢
            cases hre : readEntries n h es with
            | none => rw [hre] at heq; simp at heq
            | some ds =>
              rw [hre] at heq
              rw [ihe _ h' _ _ hag hwf hre]
              exact heq
          | hseq xs =>
            simp only [] at heq ⊢
            cases hrs : readSeq n h xs with
            | none => rw [hrs] at heq; simp at heq
            | some ds =>
              rw [hrs] at heq
              rw [ihs _ h' _ _ hag hwf hrs]
              exact heq
    · intro h h' es ds hag hwf heq
      cases es with
      | nil => simpa [readEntries] using heq
      | cons hd rest =>
        obtain ⟨k, v⟩ := hd
        rw [readEntries] at heq ⊢
        cases hrv : readHVal n h v with
        | none => rw [hrv] at heq; simp at heq
        | some d =>
          rw [hrv] at heq
          rw [ihv _ h' _ _ hag hwf hrv]
          simp only [] at heq ⊢
          cases hre : readEntries n h rest with
          | none => rw [hre] at heq; simp at heq
          | some ds2 =>
            rw [hre] at heq
            rw [ihe _ h' _ _ hag hwf hre]
            exact heq
    · intro h h' xs ds hag hwf heq
      cases xs with
      | nil => simpa [readSeq] using heq
      | cons x rest =>
        rw [readSeq] at heq ⊢
        cases hrv : readHVal n h x with
        | none => rw [hrv] at heq; simp at heq
        | some d =>
          rw [hrv] at heq
          rw [ihv _ h' _ _ hag hwf hrv]
          simp only [] at heq ⊢
          cases hrs : readSeq n h rest with
          | none => rw [hrs] at heq; simp at heq
          | some ds2 =>
            rw [hrs] at heq
            rw [ihs _ h' _ _ hag hwf hrs]
            exact heq

/-- C3: `Merge` mutates neither of its arguments: in the heap embedding,
whenever a merge call succeeds, the structural snapshots of both the base
and override values read after the call are identical to the snapshots
read before it. -/
theorem claim_C3_theorem :
    ∀ (fuel f2 : Nat) (h h' : Heap) (b o rv : HVal) (db dob : Doc),
      Heap.wf h →
      mergeH fuel h b o = some (h', rv) →
      readHVal f2 h b = some db →
      readHVal f2 h o = some dob →
      readHVal f2 h' b = some db ∧ readHVal f2 h' o = some dob := by
  intro fuel f2 h h' b o rv db dob hwf hm hb ho
  have fr : FrameOK h h' := (mergeFrame fuel).1 _ _ _ _ _ hm
  exact ⟨(readStable f2).1 _ _ _ _ fr.2 hwf hb, (readStable f2).1 _ _ _ _ fr.2 hwf ho⟩

theorem claim_C3_witness :
    readHVal 4
      ⟨3, [(2, HNode.hmap [("a", HVal.vint 1)]), (1, HNode.hmap []),
           (0, HNode.hmap [("a", HVal.vint 1)])]⟩
      (HVal.vref 0) = some (Doc.mapD [("a", Doc.intD 1)]) ∧
    readHVal 4
      ⟨3, [(2, HNode.hmap [("a", HVal.vint 1)]), (1, HNode.hmap []),
           (0, HNode.hmap [("a", HVal.vint 1)])]⟩
      HVal.vnull = some Doc.null :=
  claim_C3_theorem 4 4 ⟨1, [(0, HNode.hmap [("a", HVal.vint 1)])]⟩ _
    (HVal.vref 0) HVal.vnull _ (Doc.mapD [("a", Doc.intD 1)]) Doc.null
    (fun a ha => by
      have ha1 : 1 ≤ a := ha
      simp only [Heap.get, memGet]
      rw [if_neg (by omega)])
    rfl rfl rfl

/-!
### Directive extraction (`internal/domain/config/directive.go`, claim C7)

`ExtractRemoteURL` scans the local file line by line (bufio.Scanner with
`ScanLines`), considers only lines that after trimming start with `//` or
`#`, applies the case-insensitive pattern
`GOLANGCI_LINT_REMOTE_CONFIG:\s*(\S+)` and normalizes the first captured
token via the external `gopkg/url` helper, here a parameter.  Lines are
`List Char` so that everything reduces in the kernel.
-/

/-- Go `unicode.IsSpace` restricted to ASCII (the characters relevant to
`strings.TrimSpace` on config files). -/
def goIsSpace (c : Char) : Bool :=
  c = ' ' || c = '\t' || c = '\n' || c = '\x0b' || c = '\x0c' || c = '\r'

/-- `\s` of Go regexp (RE2 Perl class): `[\t\n\f\r ]`. -/
def reIsSpace (c : Char) : Bool :=
  c = ' ' || c = '\t' || c = '\n' || c = '\x0c' || c = '\r'

/-- `strings.TrimSpace` on a line. -/
def trimSpaceL (l : List Char) : List Char :=
  ((l.dropWhile goIsSpace).reverse.dropWhile goIsSpace).reverse

/-- Split a character stream at newlines (keeping a possibly empty final
fragment). -/
def splitNL : List Char → List (List Char)
  | [] => [[]]
  | c :: rest =>
    if c = '\n' then [] :: splitNL rest
    else
      match splitNL rest with
      | l :: ls => (c :: l) :: ls
      | [] => [[c]]

/-- `bufio.ScanLines` drops one trailing `\r` of each line. -/
def stripCR (l : List Char) : List Char :=
  if l.getLast? = some '\r' then l.dropLast else l

/-- `bufio.Scanner` + `ScanLines` tokenisation: no token for empty input,
and no empty final token when the input ends with a newline. -/
def scanLines (s : String) : List (List Char) :=
  match s.toList with
  | [] => []
  | cs =>
    (if cs.getLast? = some '\n' then (splitNL cs).dropLast else splitNL cs).map stripCR

/-- The literal part of the directive pattern, lower-cased. -/
def directiveLower : List Char := "golangci_lint_remote_config:".toList

/-- Try the directive pattern anchored at the head of `cs`: the literal
(case-insensitively), then `\s*`, then a non-empty `\S+` capture. -/
def matchDirAt (cs : List Char) : Option (List Char) :=
  if (cs.take directiveLower.length).map Char.toLower = directiveLower then
    let tok := ((cs.drop directiveLower.length).dropWhile reIsSpace).takeWhile
      (fun c => !(reIsSpace c))
    if tok.isEmpty then none else some tok
  else none

/-- Leftmost regexp match in a line (`FindStringSubmatch`): try every
start position left to right. -/
def findDirective : List Char → Option (List Char)
  | [] => none
  | c :: rest =>
    match matchDirAt (c :: rest) with
    | some tok => some tok
    | none => findDirective rest

/-- A trimmed line is a comment iff it starts with `//` or `#`. -/
def isCommentLine (t : List Char) : Bool :=
  List.isPrefixOf "//".toList t || List.isPrefixOf "#".toList t

/-- The two failure modes of `ExtractRemoteURL`: `ErrNoURLFound`, and the
distinct wrapped `normalize url:` error. -/
inductive ExtractErr where
  | noURLFound : ExtractErr
  | normalizeErr : ExtractErr
deriving DecidableEq, Repr

/-- The scanning loop of `ExtractRemoteURL`: skip blank and non-comment
lines; on the first comment line matching the pattern, normalize the
captured token — failure of normalization is returned immediately (it
does not continue scanning and is not `ErrNoURLFound`). -/
def extractGo (normalize : String → Except Unit String) :
    List (List Char) → Except ExtractErr String
  | [] => Except.error ExtractErr.noURLFound
  | line :: rest =>
    let t := trimSpaceL line
    if t.isEmpty then extractGo normalize rest
    else if !(isCommentLine t) then extractGo normalize rest
    else
      match findDirective t with
      | some tok =>
        match normalize (String.mk tok) with
        | Except.ok u => Except.ok u
        | Except.error _ => Except.error ExtractErr.normalizeErr
      | none => extractGo normalize rest

/-- `ExtractRemoteURL` from `internal/domain/config/directive.go`,
parameterized by the external URL normalizer. -/
def ExtractRemoteURL (normalize : String → Except Unit String) (data : String) :
    Except ExtractErr String :=
  extractGo normalize (scanLines data)

/-- Modelled from the spec: `NormalizeWithOptions` of the external
`github.com/truewebber/gopkg/url` helper is not part of this repository;
per the spec it is a deterministic normalization (lower-casing the
scheme) that rejects tokens that do not parse as URLs (e.g. tokens
without a scheme, matching the repository's own `invalid_url` test). -/
def normalizeURLModel (s : String) : Except Unit String :=
  let cs := s.toList
  if (cs.take 8).map Char.toLower = "https://".toList ∧ 8 < cs.length then
    Except.ok (String.mk ((cs.take 8).map Char.toLower ++ cs.drop 8))
  else if (cs.take 7).map Char.toLower = "http://".toList ∧ 7 < cs.length then
    Except.ok (String.mk ((cs.take 7).map Char.toLower ++ cs.drop 7))
  else Except.error ()

/-- The spec-side description of the scan: the captured token of the
first comment line matching the directive pattern. -/
def firstDirectiveToken : List (List Char) → Option (List Char)
  | [] => none
  | line :: rest =>
    let t := trimSpaceL line
    if isCommentLine t then
      match findDirective t with
      | some tok => some tok
      | none => firstDirectiveToken rest
    else firstDirectiveToken rest

theorem isCommentLine_empty : isCommentLine [] = false := by decide

theorem extractGo_spec (normalize : String → Except Unit String) :
    ∀ lines : List (List Char),
      extractGo normalize lines =
        match firstDirectiveToken lines with
        | none => Except.error ExtractErr.noURLFound
        | some tok =>
          match normalize (String.mk tok) with
          | Except.ok u => Except.ok u
          | Except.error _ => Except.error ExtractErr.normalizeErr := by
  intro lines
  induction lines with
  | nil => simp [extractGo, firstDirectiveToken]
  | cons line rest ih =>
    rw [extractGo, firstDirectiveToken]
    by_cases hemp : (trimSpaceL line).isEmpty
    · have hcl : isCommentLine (trimSpaceL line) = false := by
        rw [List.isEmpty_iff] at hemp
        rw [hemp]
        exact isCommentLine_empty
      simp [hemp, hcl, ih]
    · simp only [hemp, if_false, Bool.false_eq_true]
      by_cases hcl : isCommentLine (trimSpaceL line)
      · simp only [hcl, Bool.not_true, if_false, if_true, Bool.false_eq_true]
        cases hfd : findDirective (trimSpaceL line) with
        | some tok => simp
        | none => simpa using ih
      · simp only [hcl, Bool.not_false, if_true]
        simpa using ih

/-- C7 counterexample: a comment line matching the directive pattern
whose captured token fails to normalize makes `ExtractRemoteURL` fail
with the wrapped `normalize url:` error, which is *not* the `NoURLFound`
error the claim requires. -/
theorem claim_C7_counterexample :
    ExtractRemoteURL normalizeURLModel "# GOLANGCI_LINT_REMOTE_CONFIG: bad" =
      Except.error ExtractErr.normalizeErr ∧
    ExtractErr.normalizeErr ≠ ExtractErr.noURLFound :=
  ⟨rfl, by decide⟩

/-- C7 (amended): `ExtractRemoteURL` fails with `NoURLFound` exactly when
no comment line matching the directive pattern exists (including empty
input); when the first matching comment line's captured token exists, the
result is its normalization — the normalized URL on success, and a
distinct normalize error (not `NoURLFound`) when the token fails to
normalize. -/
theorem claim_C7_amended (normalize : String → Except Unit String) (data : String) :
    (ExtractRemoteURL normalize data = Except.error ExtractErr.noURLFound ↔
      firstDirectiveToken (scanLines data) = none) ∧
    (∀ tok : List Char, firstDirectiveToken (scanLines data) = some tok →
      ExtractRemoteURL normalize data =
        match normalize (String.mk tok) with
        | Except.ok u => Except.ok u
        | Except.error _ => Except.error ExtractErr.normalizeErr) := by
  constructor
  · rw [ExtractRemoteURL, extractGo_spec]
    cases hfd : firstDirectiveToken (scanLines data) with
    | none => simp
    | some tok =>
      simp only []
      cases hn : normalize (String.mk tok) with
      | ok u => simp
      | error e => simp
  · intro tok hfd
    rw [ExtractRemoteURL, extractGo_spec, hfd]

theorem claim_C7_witness :
    ExtractRemoteURL normalizeURLModel
        "# GOLANGCI_LINT_REMOTE_CONFIG: HTTPS://x.io/c.yml" =
      Except.ok "https://x.io/c.yml" := by
  have h := (claim_C7_amended normalizeURLModel
      "# GOLANGCI_LINT_REMOTE_CONFIG: HTTPS://x.io/c.yml").2
      "HTTPS://x.io/c.yml".toList (by decide)
  rw [h]
  rfl

/-!
### Remote fetcher (`internal/infrastructure/remote/fetcher.go`, C5/C6)

`HTTPFetcher.Fetch` is embedded per URL: the two cache files derived from
the URL hash are the state (`CacheFiles`), and the HTTP exchange is a
function from the `If-None-Match` header the fetcher sends to the
server's answer.  Cache writes are best-effort, modelled by `WriteEnv`
flags for the three file-system operations of `writeNewCache`.
-/

/-- `strings.TrimSpace` on strings. -/
def trimSpaceS (s : String) : String := String.mk (trimSpaceL s.toList)

/-- The on-disk cache state for one URL: contents of `<hash>.yml` and of
`<hash>.etag` (`none` = file absent/unreadable). -/
structure CacheFiles where
  content : Option String
  etagFile : Option String
deriving DecidableEq, Repr

/-- One HTTP exchange as seen by the fetcher: transport failure, or a
status code with a body read outcome (`io.ReadAll` may fail) and an
`ETag` header. -/
inductive HTTPAnswer where
  | transportError : HTTPAnswer
  | response (status : Nat) (bodyRead : Except Unit String) (etagHeader : String) : HTTPAnswer
deriving Repr

/-- `setEtagHeader`: the `If-None-Match` value sent, if the etag file is
readable and non-blank after trimming. -/
def requestEtag (etagFile : Option String) : Option String :=
  match etagFile with
  | none => none
  | some s => if trimSpaceS s = "" then none else some (trimSpaceS s)

/-- `responseBody` from fetcher.go. -/
structure ResponseBody where
  body : String
  etag : String
  notModified : Bool
deriving DecidableEq, Repr

/-- `fetchFromRemote`: build the conditional GET, then classify the
answer — 200 reads the body and trims the `ETag` header, 304 yields
`notModified`, anything else (or transport/read failure) is an error. -/
def fetchFromRemote (etagFile : Option String)
    (server : Option String → HTTPAnswer) : Except Unit ResponseBody :=
  match server (requestEtag etagFile) with
  | HTTPAnswer.transportError => Except.error ()
  | HTTPAnswer.response status bodyRead etagHeader =>
    if status = 200 then
      match bodyRead with
      | Except.ok b => Except.ok ⟨b, trimSpaceS etagHeader, false⟩
      | Except.error _ => Except.error ()
    else if status = 304 then Except.ok ⟨"", "", true⟩
    else Except.error ()

/-- Success flags for the file-system operations of `writeNewCache`
(`MkdirAll`, content `WriteFile`, etag `WriteFile`). -/
structure WriteEnv where
  mkdirOk : Bool
  contentWriteOk : Bool
  etagWriteOk : Bool
deriving DecidableEq, Repr

/-- `writeNewCache`: best-effort sequential writes; returns the resulting
cache state and whether all writes succeeded (a failure is only logged by
the caller). -/
def writeNewCache (env : WriteEnv) (cache : CacheFiles) (body etag : String) :
    CacheFiles × Bool :=
  if !env.mkdirOk then (cache, false)
  else if !env.contentWriteOk then (cache, false)
  else if !env.etagWriteOk then ({ cache with content := some body }, false)
  else ({ content := some body, etagFile := some etag }, true)

/-- The outcome of `HTTPFetcher.Fetch`, including the resulting cache
state. -/
inductive FetchOutcome where
  | ok (data : String) (fromCache : Bool) (cache : CacheFiles) : FetchOutcome
  | fetchError : FetchOutcome
deriving DecidableEq, Repr

/-- `HTTPFetcher.Fetch` (fetcher.go lines 44–74): fail fast when the
cache directory is blank; on any fetch error *or* on 304, serve the
cached content (cache-origin) and fail only when it is unreadable; on a
successful 200, best-effort update the cache and return the body,
network-origin. -/
def Fetch (cacheDir : String) (cache : CacheFiles)
    (server : Option String → HTTPAnswer) (env : WriteEnv) : FetchOutcome :=
  if trimSpaceS cacheDir = "" then FetchOutcome.fetchError
  else
    match fetchFromRemote cache.etagFile server with
    | Except.error _ =>
      match cache.content with
      | some body => FetchOutcome.ok body true cache
      | none => FetchOutcome.fetchError
    | Except.ok rb =>
      if rb.notModified then
        match cache.content with
        | some body => FetchOutcome.ok body true cache
        | none => FetchOutcome.fetchError
      else
        FetchOutcome.ok rb.body false (writeNewCache env cache rb.body rb.etag).1

/-- Transport failure, or an HTTP status other than 200/304. -/
def answerFails (ans : HTTPAnswer) : Prop :=
  ans = HTTPAnswer.transportError ∨
    ∃ (s : Nat) (br : Except Unit String) (e : String),
      ans = HTTPAnswer.response s br e ∧ s ≠ 200 ∧ s ≠ 304

theorem fetchFromRemote_fails {etagFile : Option String}
    {server : Option String → HTTPAnswer}
    (hans : answerFails (server (requestEtag etagFile))) :
    fetchFromRemote etagFile server = Except.error () := by
  rw [fetchFromRemote]
  rcases hans with h | ⟨s, br, e, h, h200, h304⟩
  · rw [h]
  · rw [h]
    simp [h200, h304]

/-- C5: on transport failure or any status other than 200/304, `Fetch`
returns the last-known cached content flagged cache-origin; it fails only
when no cached content exists. -/
theorem claim_C5_theorem (cacheDir : String) (cache : CacheFiles)
    (server : Option String → HTTPAnswer) (env : WriteEnv)
    (hdir : trimSpaceS cacheDir ≠ "")
    (hans : answerFails (server (requestEtag cache.etagFile))) :
    (∀ c : String, cache.content = some c →
      Fetch cacheDir cache server env = FetchOutcome.ok c true cache) ∧
    (cache.content = none → Fetch cacheDir cache server env = FetchOutcome.fetchError) := by
  constructor
  · intro c hc
    rw [Fetch, if_neg hdir, fetchFromRemote_fails hans, hc]
  · intro hc
    rw [Fetch, if_neg hdir, fetchFromRemote_fails hans, hc]

theorem claim_C5_witness :
    Fetch "d" ⟨some "cached", none⟩
      (fun _ => HTTPAnswer.response 500 (Except.ok "oops") "") ⟨true, true, true⟩ =
      FetchOutcome.ok "cached" true ⟨some "cached", none⟩ :=
  (claim_C5_theorem ("d") ⟨some "cached", none⟩
      (fun _ => HTTPAnswer.response 500 (Except.ok "oops") "") ⟨true, true, true⟩
      (by decide)
      (Or.inr ⟨500, Except.ok "oops", "", rfl, by decide, by decide⟩)).1 "cached" rfl

/-- C6: after a prior successful 200 fetch populated the cache, a fetch
against a server answering 304 returns bytes identical to the cached
content file, flagged cache-origin; and a fromCache result is only
possible when the exchange was not a successful 200 round-trip (a
successful 200 with a readable body is always network-origin). -/
theorem claim_C6_theorem (cacheDir : String) (cache0 : CacheFiles)
    (server1 server2 : Option String → HTTPAnswer) (b e : String)
    (br2 : Except Unit String) (e2 : String) (env2 : WriteEnv)
    (hdir : trimSpaceS cacheDir ≠ "")
    (h1 : ∀ q : Option String, server1 q = HTTPAnswer.response 200 (Except.ok b) e)
    (h2 : ∀ q : Option String, server2 q = HTTPAnswer.response 304 br2 e2) :
    Fetch cacheDir cache0 server1 ⟨true, true, true⟩ =
      FetchOutcome.ok b false ⟨some b, some (trimSpaceS e)⟩ ∧
    Fetch cacheDir ⟨some b, some (trimSpaceS e)⟩ server2 env2 =
      FetchOutcome.ok b true ⟨some b, some (trimSpaceS e)⟩ ∧
    (∀ (cache : CacheFiles) (server : Option String → HTTPAnswer) (env : WriteEnv)
        (data : String) (c' : CacheFiles),
        Fetch cacheDir cache server env = FetchOutcome.ok data true c' →
        ∀ (b' e' : String),
          server (requestEtag cache.etagFile) ≠
            HTTPAnswer.response 200 (Except.ok b') e') := by
  refine ⟨?_, ?_, ?_⟩
  · rw [Fetch, if_neg hdir, fetchFromRemote, h1]
    simp [writeNewCache]
  · rw [Fetch, if_neg hdir, fetchFromRemote, h2]
    simp
  · intro cache server env data c' hres b' e' hsv
    rw [Fetch, if_neg hdir, fetchFromRemote, hsv] at hres
    simp at hres

theorem claim_C6_witness :
    Fetch "d" ⟨none, none⟩
        (fun _ => HTTPAnswer.response 200 (Except.ok "body") "W/1") ⟨true, true, true⟩ =
      FetchOutcome.ok "body" false ⟨some "body", some "W/1"⟩ ∧
    Fetch "d" ⟨some "body", some "W/1"⟩
        (fun _ => HTTPAnswer.response 304 (Except.ok "") "") ⟨true, true, true⟩ =
      FetchOutcome.ok "body" true ⟨some "body", some "W/1"⟩ := by
  have h := claim_C6_theorem ("d") ⟨none, none⟩
      (fun _ => HTTPAnswer.response 200 (Except.ok "body") "W/1")
      (fun _ => HTTPAnswer.response 304 (Except.ok "") "")
      "body" "W/1" (Except.ok "") "" ⟨true, true, true⟩
      (by decide) (fun _ => rfl) (fun _ => rfl)
  exact ⟨h.1, h.2.1⟩

/-!
### Config service (`internal/infrastructure/config/service.go`, C4/C8/C9)

`Service.Prepare` is embedded over an environment of injected effects:
the local file read, the external YAML parse/serialize (gopkg.in/yaml.v3
— `NormalizeYAML` is `yaml.Unmarshal` followed by key normalization),
the external URL normalizer, the injected `RemoteFetcher`, and the
file-system operations used by cleanup and the atomic write.  The
working tree is a list of entries as visited by `filepath.WalkDir`.
-/

/-- `GeneratedFileName` from `internal/domain/config/constants.go`. -/
def GeneratedFileName : String := ".golangci.generated.yml"

/-- `filepath.Dir` (without the full `Clean` normalization, which the
paths used here do not require): everything before the last slash, `.`
when there is none. -/
def filepathDir (p : String) : String :=
  match p.toList.reverse.dropWhile (fun c => c ≠ '/') with
  | [] => "."
  | _ :: rest => if rest = [] then "/" else String.mk rest.reverse

/-- `filepath.Base`: everything after the last slash. -/
def filepathBase (p : String) : String :=
  String.mk (p.toList.reverse.takeWhile (fun c => c ≠ '/')).reverse

/-- `generatedConfigPath` (src/unnamed/part_000), the body of the
`domainconfig.GeneratedPath` called by service.go: the generated file
lives beside the local config under the fixed name. -/
def GeneratedPath (localConfig : String) : String :=
  let dir := filepathDir localConfig
  if dir = "." then GeneratedFileName else dir ++ "/" ++ GeneratedFileName

/-- `generatedHeader` (src/unnamed/part_000), the body of the
`domainconfig.Header` called by service.go. -/
def generatedHeader (remoteURL : Option String) (localConfig : String) : String :=
  "# WARNING: GENERATED FILE - DO NOT EDIT\n#\n# Generated by golangci-wrapper.\n" ++
    "# Local overrides: " ++ localConfig ++ "\n" ++
    (match remoteURL with
     | some u => "# Remote base: " ++ u ++ "\n"
     | none => "# Remote base: not configured\n") ++
    "#\n\n"

/-- An entry of the working tree as visited by `filepath.WalkDir`. -/
structure TreeEntry where
  path : String
  isDir : Bool
deriving DecidableEq, Repr

/-- Outcome of `os.Remove`: success, `os.ErrNotExist`, or another
error. -/
inductive RemoveOutcome where
  | okR : RemoveOutcome
  | notExist : RemoveOutcome
  | otherErr : RemoveOutcome
deriving DecidableEq, Repr

/-- The `walkThrough` callback of `cleanupGeneratedFiles`, folded over
the tree in walk order: directories and files not named
`GeneratedFileName` are kept; the current generated file is kept; any
other generated file is removed, and a removal error other than
"already gone" aborts the walk. -/
def cleanupWalk (absFn : String → String) (removeFn : String → RemoveOutcome)
    (absCurrent : String) : List TreeEntry → Except Unit (List TreeEntry)
  | [] => Except.ok []
  | entry :: rest =>
    if entry.isDir then
      match cleanupWalk absFn removeFn absCurrent rest with
      | Except.ok tr => Except.ok (entry :: tr)
      | Except.error e => Except.error e
    else if filepathBase entry.path ≠ GeneratedFileName then
      match cleanupWalk absFn removeFn absCurrent rest with
      | Except.ok tr => Except.ok (entry :: tr)
      | Except.error e => Except.error e
    else if absFn entry.path = absCurrent then
      match cleanupWalk absFn removeFn absCurrent rest with
      | Except.ok tr => Except.ok (entry :: tr)
      | Except.error e => Except.error e
    else
      match removeFn entry.path with
      | RemoveOutcome.otherErr => Except.error ()
      | _ => cleanupWalk absFn removeFn absCurrent rest

/-- `Service.cleanupGeneratedFiles`: resolve the current generated path
to an absolute path and walk the tree. -/
def cleanupGeneratedFiles (absFn : String → String)
    (removeFn : String → RemoveOutcome) (current : String)
    (tree : List TreeEntry) : Except Unit (List TreeEntry) :=
  cleanupWalk absFn removeFn (absFn current) tree

/-- The result of the injected `RemoteFetcher.Fetch` as the service sees
it: data plus cache-origin flag, or an error. -/
inductive RemoteFetchResult where
  | ok (data : String) (fromCache : Bool) : RemoteFetchResult
  | err : RemoteFetchResult
deriving DecidableEq, Repr

/-- The log lines Prepare can emit (warnings and infos relevant to the
claims). -/
inductive LogMsg where
  | warnExtract : LogMsg
  | warnRemote : LogMsg
  | warnNoRemote : LogMsg
  | warnCached : LogMsg
  | infoGenerated (path : String) : LogMsg
deriving DecidableEq, Repr

/-- The effect environment injected into `Service.Prepare`. -/
structure PrepareEnv where
  readFile : String → Except Unit String
  parseYAML : String → Except Unit Doc
  normalizeURL : String → Except Unit String
  fetch : String → RemoteFetchResult
  marshalYAML : Doc → Except Unit String
  absFn : String → String
  removeFn : String → RemoveOutcome
  tree : List TreeEntry
  writeOk : Bool

/-- `writeFileAtomic` leaves the generated file present in the tree. -/
def addFile (tree : List TreeEntry) (p : String) : List TreeEntry :=
  if tree.any (fun e => e.path == p && !e.isDir) then tree
  else tree ++ [⟨p, false⟩]

inductive PrepareErr where
  | readLocal : PrepareErr
  | parseLocal : PrepareErr
  | cleanupFailed : PrepareErr
  | marshalFailed : PrepareErr
  | writeFailed : PrepareErr
deriving DecidableEq, Repr

structure PrepareResult where
  generatedPath : String
  document : Doc
  header : String
  logs : List LogMsg
  tree : List TreeEntry
deriving Repr

/-- The remote half of Prepare (`remoteConfigContents` plus the caller's
degradation): extract the directive; on a directive, fetch (warning and a
nil remote document on failure), log a distinct warning if the result
came from cache, and parse the body (again warning and nil document on
failure). -/
def prepRemote (env : PrepareEnv) (data : String) : Doc × List LogMsg :=
  match ExtractRemoteURL env.normalizeURL data with
  | Except.error _ => (Doc.null, [])
  | Except.ok u =>
    match env.fetch u with
    | RemoteFetchResult.err => (Doc.null, [LogMsg.warnRemote])
    | RemoteFetchResult.ok rdata fromCache =>
      let cacheLogs : List LogMsg :=
        if fromCache then [LogMsg.warnCached] else []
      match env.parseYAML rdata with
      | Except.error _ => (Doc.null, cacheLogs ++ [LogMsg.warnRemote])
      | Except.ok remoteDocument => (remoteDocument, cacheLogs)

/-- `Service.Prepare`: read and parse the local config (fatal on
failure); extract the directive (warning only); fetch and parse the
remote document (`remoteConfigContents`), degrading to a nil remote
document with a warning on fetch or parse failure, with an extra warning
if the fetch was served from cache; merge with the remote as base and the
local as override; clean up stale generated files (fatal); marshal and
atomically write the generated file (fatal). -/
def Prepare (env : PrepareEnv) (localConfigPath : String) :
    Except PrepareErr PrepareResult :=
  match env.readFile localConfigPath with
  | Except.error _ => Except.error PrepareErr.readLocal
  | Except.ok data =>
    match env.parseYAML data with
    | Except.error _ => Except.error PrepareErr.parseLocal
    | Except.ok localDocument =>
      let extract := ExtractRemoteURL env.normalizeURL data
      let extractLogs : List LogMsg :=
        match extract with
        | Except.error _ => [LogMsg.warnExtract]
        | Except.ok _ => []
      let remote : Doc × List LogMsg := prepRemote env data
      let noRemoteLogs : List LogMsg :=
        if remote.1.isNull then [LogMsg.warnNoRemote] else []
      let merged := Merge remote.1 localDocument
      let generatedPath := GeneratedPath localConfigPath
      match cleanupGeneratedFiles env.absFn env.removeFn generatedPath env.tree with
      | Except.error _ => Except.error PrepareErr.cleanupFailed
      | Except.ok cleanedTree =>
        match env.marshalYAML merged with
        | Except.error _ => Except.error PrepareErr.marshalFailed
        | Except.ok _yamlBytes =>
          if env.writeOk then
            Except.ok
              { generatedPath := generatedPath
                document := merged
                header := generatedHeader
                  (match extract with
                   | Except.ok u => some u
                   | Except.error _ => none) localConfigPath
                logs := extractLogs ++ remote.2 ++ noRemoteLogs ++
                  [LogMsg.infoGenerated generatedPath]
                tree := addFile cleanedTree generatedPath }
          else Except.error PrepareErr.writeFailed

theorem cleanupWalk_cons (absFn : String → String) (removeFn : String → RemoveOutcome)
    (cur : String) (entry : TreeEntry) (rest : List TreeEntry) :
    cleanupWalk absFn removeFn cur (entry :: rest) =
      if entry.isDir = true ∨ filepathBase entry.path ≠ GeneratedFileName ∨
          absFn entry.path = cur then
        match cleanupWalk absFn removeFn cur rest with
        | Except.ok tr => Except.ok (entry :: tr)
        | Except.error e => Except.error e
      else
        match removeFn entry.path with
        | RemoveOutcome.otherErr => Except.error ()
        | _ => cleanupWalk absFn removeFn cur rest := by
  rw [cleanupWalk]
  by_cases h1 : entry.isDir
  · simp [h1]
  · by_cases h2 : filepathBase entry.path = GeneratedFileName
    · by_cases h3 : absFn entry.path = cur
      · simp [h1, h2, h3]
      · simp [h1, h2, h3]
    · simp [h1, h2]

theorem cleanupWalk_ok_sound (absFn : String → String)
    (removeFn : String → RemoveOutcome) (cur : String) :
    ∀ (tree tr : List TreeEntry), cleanupWalk absFn removeFn cur tree = Except.ok tr →
      ∀ e ∈ tr, e ∈ tree ∧
        (e.isDir = true ∨ filepathBase e.path ≠ GeneratedFileName ∨
          absFn e.path = cur) := by
  intro tree
  induction tree with
  | nil =>
    intro tr h e he
    simp [cleanupWalk] at h
    rw [h] at he
    simp at he
  | cons entry rest ih =>
    intro tr h e he
    rw [cleanupWalk_cons] at h
    by_cases hkeep : (entry.isDir = true ∨ filepathBase entry.path ≠ GeneratedFileName ∨
        absFn entry.path = cur)
    · rw [if_pos hkeep] at h
      cases hw : cleanupWalk absFn removeFn cur rest with
      | error e1 => rw [hw] at h; simp at h
      | ok tr2 =>
        rw [hw] at h
        simp at h
        rw [← h] at he
        rcases List.mem_cons.mp he with rfl | hmem
        · exact ⟨List.mem_cons_self _ _, hkeep⟩
        · obtain ⟨hm, hc⟩ := ih tr2 hw e hmem
          exact ⟨List.mem_cons_of_mem _ hm, hc⟩
    · rw [if_neg hkeep] at h
      cases hrm : removeFn entry.path with
      | otherErr => rw [hrm] at h; simp at h
      | okR =>
        rw [hrm] at h
        simp only [] at h
        obtain ⟨hm, hc⟩ := ih tr h e he
        exact ⟨List.mem_cons_of_mem _ hm, hc⟩
      | notExist =>
        rw [hrm] at h
        simp only [] at h
        obtain ⟨hm, hc⟩ := ih tr h e he
        exact ⟨List.mem_cons_of_mem _ hm, hc⟩

theorem cleanupWalk_error_iff (absFn : String → String)
    (removeFn : String → RemoveOutcome) (cur : String) :
    ∀ tree : List TreeEntry,
      cleanupWalk absFn removeFn cur tree = Except.error () ↔
        ∃ e ∈ tree, e.isDir = false ∧ filepathBase e.path = GeneratedFileName ∧
          absFn e.path ≠ cur ∧ removeFn e.path = RemoveOutcome.otherErr := by
  intro tree
  induction tree with
  | nil => simp [cleanupWalk]
  | cons entry rest ih =>
    rw [cleanupWalk_cons]
    by_cases hkeep : (entry.isDir = true ∨ filepathBase entry.path ≠ GeneratedFileName ∨
        absFn entry.path = cur)
    · rw [if_pos hkeep]
      constructor
      · intro h
        cases hw : cleanupWalk absFn removeFn cur rest with
        | ok tr => rw [hw] at h; simp at h
        | error e1 =>
          obtain ⟨e, hmem, hprops⟩ := ih.mp (by rw [hw])
          exact ⟨e, List.mem_cons_of_mem _ hmem, hprops⟩
      · rintro ⟨e, hmem, hdir, hbase, habs, hrm⟩
        rcases List.mem_cons.mp hmem with rfl | hmem2
        · exfalso
          rcases hkeep with hk | hk | hk
          · rw [hdir] at hk; exact Bool.noConfusion hk
          · exact hk hbase
          · exact habs hk
        · rw [ih.mpr ⟨e, hmem2, hdir, hbase, habs, hrm⟩]
    · rw [if_neg hkeep]
      cases hrm : removeFn entry.path with
      | otherErr =>
        simp only []
        constructor
        · intro _
          push_neg at hkeep
          obtain ⟨hk1, hk2, hk3⟩ := hkeep
          exact ⟨entry, List.mem_cons_self _ _, by simpa using hk1, hk2, hk3, hrm⟩
        · intro _; trivial
      | okR =>
        simp only []
        rw [ih]
        constructor
        · rintro ⟨e, hmem, hprops⟩
          exact ⟨e, List.mem_cons_of_mem _ hmem, hprops⟩
        · rintro ⟨e, hmem, hdir, hbase, habs, hrm2⟩
          rcases List.mem_cons.mp hmem with rfl | hmem2
          · rw [hrm] at hrm2; exact absurd hrm2 (by simp)
          · exact ⟨e, hmem2, hdir, hbase, habs, hrm2⟩
      | notExist =>
        simp only []
        rw [ih]
        constructor
        · rintro ⟨e, hmem, hprops⟩
          exact ⟨e, List.mem_cons_of_mem _ hmem, hprops⟩
        · rintro ⟨e, hmem, hdir, hbase, habs, hrm2⟩
          rcases List.mem_cons.mp hmem with rfl | hmem2
          · rw [hrm] at hrm2; exact absurd hrm2 (by simp)
          · exact ⟨e, hmem2, hdir, hbase, habs, hrm2⟩

theorem Prepare_ok_inv (env : PrepareEnv) (p : String) (res : PrepareResult)
    (h : Prepare env p = Except.ok res) :
    ∃ (data : String) (localDoc : Doc) (cleanedTree : List TreeEntry),
      env.readFile p = Except.ok data ∧
      env.parseYAML data = Except.ok localDoc ∧
      cleanupGeneratedFiles env.absFn env.removeFn (GeneratedPath p) env.tree =
        Except.ok cleanedTree ∧
      res.document = Merge (prepRemote env data).1 localDoc ∧
      res.tree = addFile cleanedTree (GeneratedPath p) := by
  rw [Prepare] at h
  cases hr : env.readFile p with
  | error e1 => rw [hr] at h; simp at h
  | ok data =>
    rw [hr] at h
    simp only [] at h
    cases hp : env.parseYAML data with
    | error e2 => rw [hp] at h; simp at h
    | ok localDoc =>
      rw [hp] at h
      simp only [] at h
      cases hcl : cleanupGeneratedFiles env.absFn env.removeFn (GeneratedPath p) env.tree with
      | error e3 => rw [hcl] at h; simp at h
      | ok cleanedTree =>
        rw [hcl] at h
        simp only [] at h
        cases hm : env.marshalYAML (Merge (prepRemote env data).1 localDoc) with
        | error e4 => rw [hm] at h; simp at h
        | ok ybytes =>
          rw [hm] at h
          simp only [] at h
          by_cases hw : env.writeOk
          · simp only [hw, if_true] at h
            rw [Except.ok.injEq] at h
            refine ⟨data, localDoc, cleanedTree, rfl, hp, rfl, ?_, ?_⟩
            · rw [← h]
            · rw [← h]
          · simp [hw] at h

theorem mem_addFile {tree : List TreeEntry} {p : String} {e : TreeEntry}
    (h : e ∈ addFile tree p) : e ∈ tree ∨ e = ⟨p, false⟩ := by
  rw [addFile] at h
  by_cases hc : tree.any (fun e => e.path == p && !e.isDir)
  · rw [if_pos hc] at h
    exact Or.inl h
  · rw [if_neg hc] at h
    rcases List.mem_append.mp h with hm | hm
    · exact Or.inl hm
    · simp at hm
      exact Or.inr hm

/-- C8: (i) the stale-file cleanup fails exactly when some file in the
working tree named `GeneratedFileName`, other than the one about to be
written, has a removal failure other than "already gone"; (ii) such a
failure makes Prepare fail; (iii) after a successful Prepare, every file
named `GeneratedFileName` in the resulting tree resolves to the absolute
path of the generated file beside the local config — at most one
generated file is current. -/
theorem claim_C8_theorem (env : PrepareEnv) (p : String) :
    (cleanupGeneratedFiles env.absFn env.removeFn (GeneratedPath p) env.tree =
        Except.error () ↔
      ∃ e ∈ env.tree, e.isDir = false ∧ filepathBase e.path = GeneratedFileName ∧
        env.absFn e.path ≠ env.absFn (GeneratedPath p) ∧
        env.removeFn e.path = RemoveOutcome.otherErr) ∧
    (∀ (data : String) (localDoc : Doc),
        env.readFile p = Except.ok data →
        env.parseYAML data = Except.ok localDoc →
        cleanupGeneratedFiles env.absFn env.removeFn (GeneratedPath p) env.tree =
          Except.error () →
        Prepare env p = Except.error PrepareErr.cleanupFailed) ∧
    (∀ res : PrepareResult, Prepare env p = Except.ok res →
        ∀ e ∈ res.tree, e.isDir = false → filepathBase e.path = GeneratedFileName →
          env.absFn e.path = env.absFn (GeneratedPath p)) := by
  refine ⟨?_, ?_, ?_⟩
  · rw [cleanupGeneratedFiles]
    exact cleanupWalk_error_iff env.absFn env.removeFn (env.absFn (GeneratedPath p)) env.tree
  · intro data localDoc hr hp hcl
    rw [Prepare, hr]
    simp only []
    rw [hp]
    simp only []
    rw [hcl]
  · intro res hres e he hdir hbase
    obtain ⟨data, localDoc, cleanedTree, hr, hp, hcl, hdoc, htree⟩ :=
      Prepare_ok_inv env p res hres
    rw [htree] at he
    rcases mem_addFile he with hm | rfl
    · rw [cleanupGeneratedFiles] at hcl
      rcases (cleanupWalk_ok_sound env.absFn env.removeFn (env.absFn (GeneratedPath p))
          env.tree cleanedTree hcl e hm).2 with h1 | h1 | h1
      · rw [hdir] at h1; exact absurd h1 (by simp)
      · exact absurd hbase h1
      · exact h1
    · rfl

def envC8 : PrepareEnv :=
  { readFile := fun _ => Except.ok "linters: {}"
    parseYAML := fun _ => Except.ok (Doc.mapD [])
    normalizeURL := normalizeURLModel
    fetch := fun _ => RemoteFetchResult.err
    marshalYAML := fun _ => Except.ok ""
    absFn := fun s => s
    removeFn := fun _ => RemoveOutcome.otherErr
    tree := [⟨"sub/.golangci.generated.yml", false⟩]
    writeOk := true }

theorem claim_C8_witness :
    Prepare envC8 "l.yml" = Except.error PrepareErr.cleanupFailed :=
  (claim_C8_theorem envC8 "l.yml").2.1 "linters: {}" (Doc.mapD []) rfl rfl rfl

theorem merge_null_base (X : Doc) (h : X ≠ Doc.null) : Merge Doc.null X = DeepCopy X := by
  cases X with
  | null => exact absurd rfl h
  | mapD es => simp [Merge]
  | seqD xs => simp [Merge]
  | strD s => simp [Merge]
  | intD n => simp [Merge]
  | boolD b => simp [Merge]

/-- C9: a nil base falls into the override-wins branch, so
`Merge(nil, X)` is a deep copy of X for non-nil X; consequently a Prepare
run without a remote document (directive absent) generates exactly the
local document. -/
theorem claim_C9_theorem :
    (∀ X : Doc, X ≠ Doc.null → Merge Doc.null X = DeepCopy X ∧ DeepCopy X = X) ∧
    (∀ (env : PrepareEnv) (p data : String) (X : Doc),
        env.readFile p = Except.ok data →
        env.parseYAML data = Except.ok X →
        X ≠ Doc.null →
        ExtractRemoteURL env.normalizeURL data = Except.error ExtractErr.noURLFound →
        ∀ res : PrepareResult, Prepare env p = Except.ok res → res.document = X) := by
  constructor
  · intro X hX
    exact ⟨merge_null_base X hX, deepCopy_eq X⟩
  · intro env p data X hr hp hX hex res hres
    obtain ⟨data2, localDoc2, cleanedTree, hr2, hp2, hcl, hdoc, htree⟩ :=
      Prepare_ok_inv env p res hres
    rw [hr] at hr2
    injection hr2 with hd
    subst hd
    rw [hp] at hp2
    injection hp2 with hl
    subst hl
    rw [hdoc, prepRemote, hex]
    simp only []
    rw [merge_null_base X hX, deepCopy_eq X]

theorem claim_C9_witness :
    Merge Doc.null (Doc.strD "x") = DeepCopy (Doc.strD "x") ∧
    DeepCopy (Doc.strD "x") = Doc.strD "x" :=
  claim_C9_theorem.1 (Doc.strD "x") (by simp)

/-- C4: when the local file parses, (i) a present directive whose fetch
succeeds and whose body normalizes makes the generated document
`Merge(remoteDocument, localDocument)` — remote as base, local as
override; (ii) a fetch failure degrades to the local-only document (a nil
remote base), logs a warning, and Prepare still succeeds. -/
theorem claim_C4_theorem (env : PrepareEnv) (p data ybytes : String)
    (localDoc : Doc) (tr : List TreeEntry)
    (hread : env.readFile p = Except.ok data)
    (hparse : env.parseYAML data = Except.ok localDoc)
    (hclean : cleanupGeneratedFiles env.absFn env.removeFn (GeneratedPath p) env.tree =
      Except.ok tr)
    (hwrite : env.writeOk = true) :
    (∀ (u rdata : String) (fc : Bool) (rdoc : Doc),
        ExtractRemoteURL env.normalizeURL data = Except.ok u →
        env.fetch u = RemoteFetchResult.ok rdata fc →
        env.parseYAML rdata = Except.ok rdoc →
        env.marshalYAML (Merge rdoc localDoc) = Except.ok ybytes →
        ∃ res : PrepareResult, Prepare env p = Except.ok res ∧
          res.document = Merge rdoc localDoc) ∧
    (∀ u : String,
        ExtractRemoteURL env.normalizeURL data = Except.ok u →
        env.fetch u = RemoteFetchResult.err →
        env.marshalYAML (Merge Doc.null localDoc) = Except.ok ybytes →
        ∃ res : PrepareResult, Prepare env p = Except.ok res ∧
          res.document = Merge Doc.null localDoc ∧
          LogMsg.warnRemote ∈ res.logs) := by
  constructor
  · intro u rdata fc rdoc hex hfetch hparse2 hmarshal
    have hrem : prepRemote env data =
        (rdoc, if fc then [LogMsg.warnCached] else []) := by
      rw [prepRemote, hex]
      simp only []
      rw [hfetch]
      simp only []
      rw [hparse2]
    rw [Prepare, hread]
    simp only []
    rw [hparse]
    simp only [hrem]
    rw [hclean]
    simp only []
    rw [hmarshal]
    simp only [hwrite, if_true]
    exact ⟨_, rfl, rfl⟩
  · intro u hex hfetch hmarshal
    have hrem : prepRemote env data = (Doc.null, [LogMsg.warnRemote]) := by
      rw [prepRemote, hex]
      simp only []
      rw [hfetch]
    rw [Prepare, hread]
    simp only []
    rw [hparse]
    simp only [hrem]
    rw [hclean]
    simp only []
    rw [hmarshal]
    simp only [hwrite, if_true]
    refine ⟨_, rfl, rfl, ?_⟩
    simp

def envC4 : PrepareEnv :=
  { readFile := fun _ => Except.ok "# GOLANGCI_LINT_REMOTE_CONFIG: https://x.io/c.yml"
    parseYAML := fun s =>
      if s = "remote-yaml" then Except.ok (Doc.mapD [("b", Doc.intD 2)])
      else Except.ok (Doc.mapD [("a", Doc.intD 1)])
    normalizeURL := normalizeURLModel
    fetch := fun _ => RemoteFetchResult.ok "remote-yaml" false
    marshalYAML := fun _ => Except.ok "out"
    absFn := fun s => s
    removeFn := fun _ => RemoveOutcome.okR
    tree := []
    writeOk := true }

theorem claim_C4_witness :
    ∃ res : PrepareResult, Prepare envC4 "l.yml" = Except.ok res ∧
      res.document =
        Merge (Doc.mapD [("b", Doc.intD 2)]) (Doc.mapD [("a", Doc.intD 1)]) :=
  (claim_C4_theorem envC4 "l.yml" "# GOLANGCI_LINT_REMOTE_CONFIG: https://x.io/c.yml"
      "out" (Doc.mapD [("a", Doc.intD 1)]) [] rfl rfl rfl rfl).1
    "https://x.io/c.yml" "remote-yaml" false (Doc.mapD [("b", Doc.intD 2)])
    rfl rfl rfl rfl

end GolangciConfig
